import Mathlib

/-!
Verification of the shoe-inventory program (src/inventory.py) against its
specification.  The program is a single Python script managing a list of
Shoe records (country, code, product, cost, quantity) persisted in a
comma-delimited text file.

Modelling conventions:
* Python strings are lists of characters (`Str`).  The backing file is
  modelled as its list of lines: the file always consists of a header line
  followed by record lines, the program writes records by appending a
  newline followed by the record text, and no field can contain a newline
  because fields come from input(), which returns a single line.
* Python floats are modelled as exact rationals.  The program only creates
  cost values by parsing decimal literals, so every reachable cost is a
  rational whose denominator divides a power of ten, and str(float)
  printing (shortest decimal form) is modelled by printing that decimal
  exactly.  Python ints are modelled by unbounded integers, as in Python.
* float(s) and int(s) are modelled on the decimal fragment of their
  grammar: optional surrounding whitespace, optional sign, digits with an
  optional fraction part.  Exponent forms, inf, nan, and underscore
  separators never arise in this program and are not modelled.
* Interactive operations are modelled as functions of the store, the file
  and the values read from the console; the blocking re-prompt loops of
  capture_shoes are modelled as hypotheses stating what the loops
  guarantee on exit (a cost accepted by float() that is positive, and a
  non-negative integer quantity).
-/

namespace Inventory

/-- Python strings are modelled as lists of characters. -/
abbrev Str := List Char

/-- Test for an ASCII decimal digit, as used by the decimal grammar of
Python int() and float(). -/
def isDigitCh (c : Char) : Bool := decide (48 ≤ c.toNat ∧ c.toNat ≤ 57)

/-- Test for the whitespace characters stripped by str.strip() and by the
numeric constructors (the ASCII ones that can actually occur here). -/
def isSpaceCh (c : Char) : Bool :=
  decide (c = ' ' ∨ c = '\t' ∨ c = '\n' ∨ c = '\r')

/-- Numeric value of a digit character. -/
def charDigitVal (c : Char) : ℕ := c.toNat - 48

/-- Digit character of a value below ten. -/
def digitCharOf (d : ℕ) : Char :=
  match d with
  | 0 => '0' | 1 => '1' | 2 => '2' | 3 => '3' | 4 => '4'
  | 5 => '5' | 6 => '6' | 7 => '7' | 8 => '8' | 9 => '9'
  | _ => '*'

/-- Value of a big-endian digit string. -/
def digitsToNat (l : Str) : ℕ := l.foldl (fun a c => 10 * a + charDigitVal c) 0

/-- Model of Python str.split(sep) for a one-character separator: splitting
the empty string gives one empty field, and each separator occurrence
starts a new field. -/
def splitOnChar (sep : Char) : Str → List Str
  | [] => [[]]
  | c :: cs =>
    match splitOnChar sep cs with
    | [] => [[]]
    | f :: r => if c = sep then [] :: f :: r else (c :: f) :: r

/-- Model of Python str.strip(): remove leading and trailing whitespace. -/
def trimStr (l : Str) : Str :=
  ((l.dropWhile isSpaceCh).reverse.dropWhile isSpaceCh).reverse

/-- Parse a non-empty all-digit string, the core of int() and of the parts
of float(). -/
def pyUnsignedInt (l : Str) : Option ℕ :=
  if !l.isEmpty && l.all isDigitCh then some (digitsToNat l) else none

/-- Model of Python int(s) on its decimal fragment: strip whitespace, an
optional sign, then a non-empty digit string; anything else raises
ValueError, modelled as none. -/
def pyint (s : Str) : Option ℤ :=
  let t := trimStr s
  if t.head? = some '-' then Option.map (fun n : ℕ => -(n : ℤ)) (pyUnsignedInt t.tail)
  else if t.head? = some '+' then Option.map (fun n : ℕ => (n : ℤ)) (pyUnsignedInt t.tail)
  else Option.map (fun n : ℕ => (n : ℤ)) (pyUnsignedInt t)

/-- Unsigned part of float(s): either a plain digit string, or an integer
part and a fraction part separated by one dot, at least one of them
non-empty. -/
def pyUnsignedFloat (l : Str) : Option ℚ :=
  match splitOnChar '.' l with
  | [a] => Option.map (fun n : ℕ => (n : ℚ)) (pyUnsignedInt a)
  | [a, b] =>
    if !(a.isEmpty && b.isEmpty) && a.all isDigitCh && b.all isDigitCh then
      some ((digitsToNat a : ℚ) + (digitsToNat b : ℚ) / 10 ^ b.length)
    else none
  | _ => none

/-- Model of Python float(s) on its decimal fragment: strip whitespace, an
optional sign, then an unsigned decimal; anything else raises ValueError,
modelled as none. -/
def pyfloat (s : Str) : Option ℚ :=
  let t := trimStr s
  if t.head? = some '-' then Option.map (fun q : ℚ => -q) (pyUnsignedFloat t.tail)
  else if t.head? = some '+' then pyUnsignedFloat t.tail
  else pyUnsignedFloat t

/-- Big-endian digit string of a natural number; the first argument is
fuel making the recursion structural, always instantiated at the number
itself. -/
def natStrAux : ℕ → ℕ → Str
  | 0, _ => []
  | _ + 1, 0 => []
  | fuel + 1, n + 1 => natStrAux fuel ((n + 1) / 10) ++ [digitCharOf ((n + 1) % 10)]

/-- Decimal digit string of a natural number. -/
def natStr (n : ℕ) : Str := if n = 0 then ['0'] else natStrAux n n

/-- Smallest exponent k with d dividing 10 ^ k, for denominators of
decimal rationals; the search is bounded by d, which suffices. -/
def decExp (d : ℕ) : ℕ :=
  ((List.range (d + 1)).find? (fun k => decide (d ∣ 10 ^ k))).getD 0

/-- Digit layout of a decimal with mantissa m and k fraction digits, as
str() prints it: no fraction digits means a single zero after the dot,
otherwise the fraction is zero-padded to k digits. -/
def strFloatDigits (k m : ℕ) : Str :=
  if k = 0 then natStr m ++ ['.', '0']
  else
    natStr (m / 10 ^ k) ++
      '.' :: (List.replicate (k - (natStr (m % 10 ^ k)).length) '0' ++ natStr (m % 10 ^ k))

/-- Decimal string of a non-negative rational with decimal denominator:
model of Python str() on a float, which prints the shortest decimal form,
with at least one fraction digit. -/
def strFloatAbs (q : ℚ) : Str :=
  strFloatDigits (decExp q.den) ((q * 10 ^ decExp q.den).num.toNat)

/-- Model of Python str() on a float, with sign. -/
def strFloat (q : ℚ) : Str :=
  if q < 0 then '-' :: strFloatAbs (-q) else strFloatAbs q

/-- Model of Python str() on an int. -/
def strInt (z : ℤ) : Str :=
  if z < 0 then '-' :: natStr z.natAbs else natStr z.toNat

/-- Model of Python str.upper() on the characters occurring here. -/
def upperStr (l : Str) : Str := l.map Char.toUpper

/-- Model of Python str.lower() on the characters occurring here. -/
def lowerStr (l : Str) : Str := l.map Char.toLower

/-- One inventory record, as built by Shoe.__init__: cost is float(cost)
and quantity is int(quantity), so the stored cost is a rational and the
stored quantity an integer. -/
structure Shoe where
  country : Str
  code : Str
  product : Str
  cost : ℚ
  quantity : ℤ
deriving DecidableEq, Repr

/-- Default record used only to give list indexing a total type. -/
def dShoe : Shoe := ⟨[], [], [], 0, 0⟩

/-- The fixed header line country,code,product,cost,quantity. -/
def headerLine : Str :=
  ['c','o','u','n','t','r','y',',','c','o','d','e',',','p','r','o','d','u','c','t',',',
   'c','o','s','t',',','q','u','a','n','t','i','t','y']

/-- Record line as written by Shoe.__str__ and by the append in
capture_shoes: the five fields joined by commas, cost via str(float) and
quantity via str(int). -/
def shoeLine (s : Shoe) : Str :=
  s.country ++ (',' :: (s.code ++ (',' :: (s.product ++ (',' ::
    (strFloat s.cost ++ (',' :: strInt s.quantity)))))))

/-- Construction of a Shoe from the five split fields of a line, as in
Shoe(data[0], ..., data[4]): float() on the cost field and int() on the
quantity field, either failure raising the exception that aborts the
load. -/
def parseShoe (data : List Str) : Option Shoe :=
  match data with
  | [c, co, p, costS, qtyS] =>
    match pyfloat costS, pyint qtyS with
    | some cost, some qty => some ⟨c, co, p, cost, qty⟩
    | _, _ => none
  | _ => none

/-- Body of the read loop of read_shoes_data: each line is stripped and
split on commas; a line with a field count other than five is skipped; a
five-field line is parsed, a parse failure aborting the whole loop with
the records accumulated so far (the except handler returns False but does
not clear the list). -/
def loadLines : List Str → List Shoe → Bool × List Shoe
  | [], acc => (true, acc)
  | l :: ls, acc =>
    let data := splitOnChar ',' (trimStr l)
    if data.length = 5 then
      match parseShoe data with
      | some s => loadLines ls (acc ++ [s])
      | none => (false, acc)
    else loadLines ls acc

/-- Model of read_shoes_data on an existing file: the previous store is
discarded (shoe_list.clear()), the first line is skipped (next(file); on a
file with no lines at all this raises StopIteration, caught as a load
failure), and the remaining lines are processed by the read loop.  The
absent-file branch of the source creates a header-only file and leaves
the store empty; it is not needed by any claim. -/
def read_shoes_data (_prev : List Shoe) (file : List Str) : Bool × List Shoe :=
  match file with
  | [] => (false, [])
  | _ :: rest => loadLines rest []

/-- Model of capture_shoes after its input loops have finished: the code
is uppercased, the new record is appended to the store, and one record
line is appended to the file.  The loops guarantee of a positive float
cost and a non-negative int quantity appears as hypotheses of the
theorems using this operation. -/
def capture_shoes (store : List Shoe) (file : List Str)
    (country code product : Str) (cost : ℚ) (quantity : ℤ) :
    List Shoe × List Str :=
  let sh : Shoe := ⟨country, upperStr code, product, cost, quantity⟩
  (store ++ [sh], file ++ [shoeLine sh])

/-- One add action: the values read by capture_shoes from the console. -/
structure AddInput where
  country : Str
  code : Str
  product : Str
  cost : ℚ
  quantity : ℤ

/-- A sequence of add operations applied to a store and file. -/
def applyAdds (init : List Shoe × List Str) (adds : List AddInput) :
    List Shoe × List Str :=
  adds.foldl
    (fun st a => capture_shoes st.1 st.2 a.country a.code a.product a.cost a.quantity)
    init

/-- The record that capture_shoes builds from one add input: the code is
uppercased, the other fields are stored as entered. -/
def shoeOf (a : AddInput) : Shoe :=
  ⟨a.country, upperStr a.code, a.product, a.cost, a.quantity⟩

/-- Index of the record returned by min(shoe_list, key=lambda x:
x.quantity): Python min returns the first element attaining the minimum,
and re_stock mutates that element in place. -/
def minQtyIdx : List Shoe → ℕ
  | [] => 0
  | [_] => 0
  | s :: t :: r =>
    if ((t :: r).getD (minQtyIdx (t :: r)) dShoe).quantity < s.quantity
    then minQtyIdx (t :: r) + 1 else 0

/-- Index of the record returned by max(shoe_list, key=lambda x:
x.quantity): the first element attaining the maximum. -/
def maxQtyIdx : List Shoe → ℕ
  | [] => 0
  | [_] => 0
  | s :: t :: r =>
    if ((t :: r).getD (maxQtyIdx (t :: r)) dShoe).quantity > s.quantity
    then maxQtyIdx (t :: r) + 1 else 0

/-- Model of re_stock: on an empty store it only prints; otherwise it
selects the first minimum-quantity record, asks for confirmation, and on
a literal yes (case-insensitive) parses the increment with int(); a parse
failure or a non-positive increment leaves store and file untouched,
while a positive increment k updates the selected record in place and
rewrites the whole file as the header followed by one line per record. -/
def re_stock (store : List Shoe) (file : List Str) (confirm answer : Str) :
    List Shoe × List Str :=
  if store = [] then (store, file)
  else if lowerStr confirm = ['y', 'e', 's'] then
    match pyint answer with
    | some k =>
      if 0 < k then
        let i := minQtyIdx store
        let s := store.getD i dShoe
        let store' := store.set i ⟨s.country, s.code, s.product, s.cost, s.quantity + k⟩
        (store', headerLine :: store'.map shoeLine)
      else (store, file)
    | none => (store, file)
  else (store, file)

/-- Model of search_shoe: the input code is uppercased and compared for
equality with the stored codes by a linear scan; the result is the first
record whose stored code equals the uppercased input, none standing for
the not-found message (or for the empty-store message). -/
def search_shoe (store : List Shoe) (input : Str) : Option Shoe :=
  store.find? (fun s => decide (s.code = upperStr input))

/-- Matching up to letter case, the relation the specification ascribes to
the search operation; stated from the words of the claim for comparison
with search_shoe. -/
abbrev specCaseMatch (s : Shoe) (input : Str) : Prop :=
  upperStr s.code = upperStr input

/-- Model of highest_qty: the first record attaining the maximum quantity,
none standing for the empty-store message. -/
def highest_qty (store : List Shoe) : Option Shoe :=
  if store = [] then none else some (store.getD (maxQtyIdx store) dShoe)

/-- One row of the stock_by_country aggregation: the per-country entry of
country_stats, with the exact total value that the source accumulates in
floats. -/
structure CStat where
  country : Str
  totalValue : ℚ
  totalQuantity : ℤ
  products : ℕ
deriving DecidableEq, Repr

/-- One step of the aggregation loop of stock_by_country: Python dicts
keep insertion order, so country_stats is an association list in order of
first appearance, a new country being appended and an existing one
updated in place. -/
def updateStats (acc : List CStat) (s : Shoe) : List CStat :=
  match acc with
  | [] => [⟨s.country, s.cost * (s.quantity : ℚ), s.quantity, 1⟩]
  | e :: es =>
    if e.country = s.country then
      ⟨e.country, e.totalValue + s.cost * (s.quantity : ℚ),
        e.totalQuantity + s.quantity, e.products + 1⟩ :: es
    else e :: updateStats es s

/-- First entry of an association list of country rows for a country. -/
def statFor : List CStat → Str → Option CStat
  | [], _ => none
  | e :: es, c => if e.country = c then some e else statFor es c

/-- Rounding to the nearest integer with ties to even, as Python float
formatting does. -/
def roundHalfEven (q : ℚ) : ℤ :=
  let f := ⌊q⌋
  if q - f < 1 / 2 then f
  else if (1 : ℚ) / 2 < q - f then f + 1
  else if f % 2 = 0 then f else f + 1

/-- Value to two decimal places: the number denoted by the string
produced by the two-decimal float format.  The sort key of
stock_by_country is float(x[3][1:]), the value parsed back from the
formatted R-prefixed string, which is exactly this rounding. -/
def round2 (q : ℚ) : ℚ := (roundHalfEven (q * 100) : ℚ) / 100

/-- Stable insertion into a list sorted by a key in descending order: the
new element goes before the first element whose key is not greater.
Together with sortDesc this models Python list.sort(key=..., reverse=True),
which is a stable descending sort. -/
def insertDesc (key : CStat → ℚ) (x : CStat) : List CStat → List CStat
  | [] => [x]
  | y :: ys => if key x < key y then y :: insertDesc key x ys else x :: y :: ys

/-- Stable descending sort by a key, model of list.sort(key=...,
reverse=True) of the source. -/
def sortDesc (key : CStat → ℚ) (l : List CStat) : List CStat :=
  l.foldr (insertDesc key) []

/-- Model of stock_by_country: aggregate per country in order of first
appearance, then sort the rows in descending order of the sort key
float(x[3][1:]), which is the total value rounded to two decimals since
x[3] is the string R followed by the value formatted to two decimals. -/
def stock_by_country (store : List Shoe) : List CStat :=
  sortDesc (fun e => round2 e.totalValue) (store.foldl updateStats [])

/-- Total value of the records of a country, stated from the words of the
claim: the sum of cost times quantity over the records whose country
equals the given one exactly. -/
def countryValue (store : List Shoe) (c : Str) : ℚ :=
  ((store.filter (fun s => decide (s.country = c))).map
    (fun s => s.cost * (s.quantity : ℚ))).sum

/-- Total quantity of the records of a country, from the claim words. -/
def countryQty (store : List Shoe) (c : Str) : ℤ :=
  ((store.filter (fun s => decide (s.country = c))).map Shoe.quantity).sum

/-- Product count of the records of a country, from the claim words. -/
def countryCount (store : List Shoe) (c : Str) : ℕ :=
  (store.filter (fun s => decide (s.country = c))).length

/-- The records of the store all satisfy the data-model invariant of the
specification: positive cost and non-negative quantity. -/
def StoreValid (store : List Shoe) : Prop :=
  ∀ s ∈ store, 0 < s.cost ∧ 0 ≤ s.quantity

/-- The conditions under which one add round-trips through the file: the
input loops accepted the numbers (positive decimal cost, non-negative
quantity), no text field contains a comma or a newline, and the country
does not start with whitespace, so that stripping the written line leaves
it unchanged.  The cost of any accepted input is a decimal rational, as
pyfloat_den_dvd shows, which the divisibility condition captures. -/
def ValidAdd (a : AddInput) : Prop :=
  0 < a.cost ∧ a.cost.den ∣ 10 ^ a.cost.den ∧ 0 ≤ a.quantity ∧
  ',' ∉ a.country ∧ ',' ∉ upperStr a.code ∧ ',' ∉ a.product ∧
  '\n' ∉ a.country ∧ '\n' ∉ upperStr a.code ∧ '\n' ∉ a.product ∧
  (∀ c, a.country.head? = some c → isSpaceCh c = false)

/-! Concrete inputs used by the counterexample and witness theorems. -/

/-- A well-formed record line. -/
def lineGood : Str := "ZA,A1,AIRMAX,10.0,5".toList

/-- A second well-formed record line. -/
def lineGood2 : Str := "US,B2,BOOT,3.0,7".toList

/-- A five-field line whose cost field is not numeric. -/
def lineBadCost : Str := "ZA,B2,BOOT,xx,4".toList

/-- A line with only two comma-separated fields. -/
def lineBadFields : Str := "A,B".toList

/-- A well-formed line carrying a negative cost and a negative quantity. -/
def lineNegative : Str := "ZA,A1,BOOT,-5.0,-3".toList

/-- A store whose single record has a lowercase stored code, as a record
loaded from the file can. -/
def c3Store : List Shoe := [⟨"ZA".toList, "air001".toList, "P".toList, 1, 1⟩]

/-- The search input matching that code up to case. -/
def c3Input : Str := "air001".toList

/-- The store of the selection example of the claims: quantities
5, 2, 2, 9. -/
def c5Store : List Shoe :=
  [⟨"ZA".toList, "S0".toList, "P0".toList, 1, 5⟩,
   ⟨"ZA".toList, "S1".toList, "P1".toList, 1, 2⟩,
   ⟨"ZA".toList, "S2".toList, "P2".toList, 1, 2⟩,
   ⟨"ZA".toList, "S3".toList, "P3".toList, 1, 9⟩]

/-- A two-record store used by the restock witnesses. -/
def c6Store : List Shoe :=
  [⟨"ZA".toList, "S0".toList, "P0".toList, 1, 4⟩,
   ⟨"ZA".toList, "S1".toList, "P1".toList, 1, 2⟩]

/-- The confirmation string accepted by re_stock. -/
def yesStr : Str := "Yes".toList

/-- The add input of the round-trip counterexample: accepted by every
input check of capture_shoes, but its country contains a comma. -/
def c4Add : AddInput :=
  ⟨"A,B".toList, "C1".toList, "P".toList, 1, 1⟩

/-- The add input of the round-trip witness. -/
def c4GoodAdd : AddInput :=
  ⟨"ZA".toList, "air001".toList, "AIRMAX".toList, 150, 10⟩

/-- Two records whose values 10.001 and 10.004 differ but format to the
same two-decimal string 10.00. -/
def c8CexStore : List Shoe :=
  [⟨"AA".toList, "S0".toList, "P0".toList, 10001 / 1000, 1⟩,
   ⟨"BB".toList, "S1".toList, "P1".toList, 10004 / 1000, 1⟩]

/-- The aggregation example of the claims: two ZA records and one US
record. -/
def c8ExampleStore : List Shoe :=
  [⟨"ZA".toList, "S0".toList, "P0".toList, 10, 2⟩,
   ⟨"ZA".toList, "S1".toList, "P1".toList, 5, 1⟩,
   ⟨"US".toList, "S2".toList, "P2".toList, 100, 1⟩]

/-! Helper lemmas. -/

/-- Appending line lists splits the read loop: the second part is
processed only if the first part did not abort. -/
theorem loadLines_append (ls₁ ls₂ : List Str) : ∀ acc,
    loadLines (ls₁ ++ ls₂) acc =
      (if (loadLines ls₁ acc).1 then loadLines ls₂ (loadLines ls₁ acc).2
       else loadLines ls₁ acc) := by
  induction ls₁ with
  | nil => intro acc; simp [loadLines]
  | cons l ls ih =>
    intro acc
    by_cases h5 : (splitOnChar ',' (trimStr l)).length = 5
    · cases hp : parseShoe (splitOnChar ',' (trimStr l)) with
      | some s => simp [loadLines, h5, hp, ih]
      | none => simp [loadLines, h5, hp]
    · simp [loadLines, h5, ih]

/-- A line that does not split into five fields is skipped by the read
loop. -/
theorem loadLines_skip (l : Str) (ls : List Str) (acc : List Shoe)
    (h : (splitOnChar ',' (trimStr l)).length ≠ 5) :
    loadLines (l :: ls) acc = loadLines ls acc := by
  simp [loadLines, h]

/-- Specification of minQtyIdx: a valid index attaining the minimum
quantity, every earlier index holding a strictly larger quantity. -/
theorem minQtyIdx_spec : ∀ l : List Shoe, l ≠ [] →
    minQtyIdx l < l.length ∧
    (∀ j, j < l.length →
      (l.getD (minQtyIdx l) dShoe).quantity ≤ (l.getD j dShoe).quantity) ∧
    (∀ j, j < minQtyIdx l →
      (l.getD (minQtyIdx l) dShoe).quantity < (l.getD j dShoe).quantity) := by
  intro l
  induction l with
  | nil => intro h; exact absurd rfl h
  | cons s rest ih =>
    intro _
    cases rest with
    | nil =>
      refine ⟨by simp [minQtyIdx], ?_, ?_⟩
      · intro j hj
        cases j with
        | zero => simp only [minQtyIdx, List.getD_cons_zero]; exact le_refl _
        | succ j' => simp only [List.length_singleton] at hj; omega
      · intro j hj; simp [minQtyIdx] at hj
    | cons t r =>
      obtain ⟨ihlen, ihmin, ihfirst⟩ := ih (by simp)
      by_cases hlt : ((t :: r).getD (minQtyIdx (t :: r)) dShoe).quantity < s.quantity
      · have hidx : minQtyIdx (s :: t :: r) = minQtyIdx (t :: r) + 1 := by
          simp only [minQtyIdx, if_pos hlt]
        refine ⟨?_, ?_, ?_⟩
        · simp only [hidx, List.length_cons]
          exact Nat.succ_lt_succ ihlen
        · intro j hj
          cases j with
          | zero =>
            simp only [hidx, List.getD_cons_succ, List.getD_cons_zero]
            exact le_of_lt hlt
          | succ j' =>
            simp only [hidx, List.getD_cons_succ]
            exact ihmin j' (by simp only [List.length_cons] at hj ⊢; omega)
        · intro j hj
          rw [hidx] at hj
          cases j with
          | zero =>
            simp only [hidx, List.getD_cons_succ, List.getD_cons_zero]
            exact hlt
          | succ j' =>
            simp only [hidx, List.getD_cons_succ]
            exact ihfirst j' (by omega)
      · have hidx : minQtyIdx (s :: t :: r) = 0 := by
          simp only [minQtyIdx, if_neg hlt]
        have hle : s.quantity ≤ ((t :: r).getD (minQtyIdx (t :: r)) dShoe).quantity :=
          not_lt.mp hlt
        refine ⟨by simp [hidx], ?_, ?_⟩
        · intro j hj
          cases j with
          | zero => simp only [hidx, List.getD_cons_zero]; exact le_refl _
          | succ j' =>
            simp only [hidx, List.getD_cons_zero, List.getD_cons_succ]
            exact le_trans hle
              (ihmin j' (by simp only [List.length_cons] at hj ⊢; omega))
        · intro j hj; simp [hidx] at hj

/-- Specification of maxQtyIdx: a valid index attaining the maximum
quantity, every earlier index holding a strictly smaller quantity. -/
theorem maxQtyIdx_spec : ∀ l : List Shoe, l ≠ [] →
    maxQtyIdx l < l.length ∧
    (∀ j, j < l.length →
      (l.getD j dShoe).quantity ≤ (l.getD (maxQtyIdx l) dShoe).quantity) ∧
    (∀ j, j < maxQtyIdx l →
      (l.getD j dShoe).quantity < (l.getD (maxQtyIdx l) dShoe).quantity) := by
  intro l
  induction l with
  | nil => intro h; exact absurd rfl h
  | cons s rest ih =>
    intro _
    cases rest with
    | nil =>
      refine ⟨by simp [maxQtyIdx], ?_, ?_⟩
      · intro j hj
        cases j with
        | zero => simp only [maxQtyIdx, List.getD_cons_zero]; exact le_refl _
        | succ j' => simp only [List.length_singleton] at hj; omega
      · intro j hj; simp [maxQtyIdx] at hj
    | cons t r =>
      obtain ⟨ihlen, ihmax, ihfirst⟩ := ih (by simp)
      by_cases hlt : s.quantity < ((t :: r).getD (maxQtyIdx (t :: r)) dShoe).quantity
      · have hidx : maxQtyIdx (s :: t :: r) = maxQtyIdx (t :: r) + 1 := by
          simp only [maxQtyIdx, gt_iff_lt, if_pos hlt]
        refine ⟨?_, ?_, ?_⟩
        · simp only [hidx, List.length_cons]
          exact Nat.succ_lt_succ ihlen
        · intro j hj
          cases j with
          | zero =>
            simp only [hidx, List.getD_cons_succ, List.getD_cons_zero]
            exact le_of_lt hlt
          | succ j' =>
            simp only [hidx, List.getD_cons_succ]
            exact ihmax j' (by simp only [List.length_cons] at hj ⊢; omega)
        · intro j hj
          rw [hidx] at hj
          cases j with
          | zero =>
            simp only [hidx, List.getD_cons_succ, List.getD_cons_zero]
            exact hlt
          | succ j' =>
            simp only [hidx, List.getD_cons_succ]
            exact ihfirst j' (by omega)
      · have hidx : maxQtyIdx (s :: t :: r) = 0 := by
          simp only [maxQtyIdx, gt_iff_lt, if_neg hlt]
        have hle : ((t :: r).getD (maxQtyIdx (t :: r)) dShoe).quantity ≤ s.quantity :=
          not_lt.mp hlt
        refine ⟨by simp [hidx], ?_, ?_⟩
        · intro j hj
          cases j with
          | zero => simp only [hidx, List.getD_cons_zero]; exact le_refl _
          | succ j' =>
            simp only [hidx, List.getD_cons_zero, List.getD_cons_succ]
            exact le_trans
              (ihmax j' (by simp only [List.length_cons] at hj ⊢; omega)) hle
        · intro j hj; simp [hidx] at hj

/-- On a non-empty store, with confirmation yes and a positive parsed
increment, re_stock updates the store at the first minimum index. -/
theorem re_stock_eq_set (store : List Shoe) (file : List Str)
    (confirm answer : Str) (k : ℤ) (hne : store ≠ [])
    (hc : lowerStr confirm = ['y', 'e', 's']) (ha : pyint answer = some k)
    (hk : 0 < k) :
    re_stock store file confirm answer =
      (store.set (minQtyIdx store)
        ⟨(store.getD (minQtyIdx store) dShoe).country,
         (store.getD (minQtyIdx store) dShoe).code,
         (store.getD (minQtyIdx store) dShoe).product,
         (store.getD (minQtyIdx store) dShoe).cost,
         (store.getD (minQtyIdx store) dShoe).quantity + k⟩,
       headerLine ::
         (store.set (minQtyIdx store)
           ⟨(store.getD (minQtyIdx store) dShoe).country,
            (store.getD (minQtyIdx store) dShoe).code,
            (store.getD (minQtyIdx store) dShoe).product,
            (store.getD (minQtyIdx store) dShoe).cost,
            (store.getD (minQtyIdx store) dShoe).quantity + k⟩).map shoeLine) := by
  simp [re_stock, hne, hc, ha, hk]

/-- An index below the length selects a member of the list. -/
theorem getD_mem {α : Type} (l : List α) (i : ℕ) (d : α) (h : i < l.length) :
    l.getD i d ∈ l := by
  rw [List.getD_eq_getElem?_getD, List.getElem?_eq_getElem h]
  exact List.getElem_mem h

/-- Position of a successful linear search: a first match in list order. -/
theorem find?_first_index {α : Type} (p : α → Bool) (d : α) :
    ∀ (l : List α) (a : α), l.find? p = some a →
      ∃ k, k < l.length ∧ l.getD k d = a ∧ p a = true ∧
        ∀ j, j < k → p (l.getD j d) = false := by
  intro l
  induction l with
  | nil => intro a h; simp [List.find?] at h
  | cons x xs ih =>
    intro a h
    by_cases hp : p x
    · have hxa : x = a := by simpa [List.find?_cons, hp] using h
      subst hxa
      exact ⟨0, by simp, by simp, hp, fun j hj => absurd hj (by omega)⟩
    · have h' : xs.find? p = some a := by
        simpa [List.find?_cons, hp] using h
      obtain ⟨k, hk, hgd, hpa, hfirst⟩ := ih a h'
      refine ⟨k + 1, by simpa using Nat.succ_lt_succ hk, by simpa using hgd, hpa, ?_⟩
      intro j hj
      cases j with
      | zero => simpa using hp
      | succ j' =>
        simp only [List.getD_cons_succ]
        exact hfirst j' (by omega)

/-- Splitting the per-country total value at a cons cell. -/
theorem countryValue_cons (s : Shoe) (t : List Shoe) (c : Str) :
    countryValue (s :: t) c =
      (if s.country = c then s.cost * (s.quantity : ℚ) else 0) + countryValue t c := by
  by_cases h : s.country = c <;> simp [countryValue, List.filter_cons, h]

/-- Splitting the per-country total quantity at a cons cell. -/
theorem countryQty_cons (s : Shoe) (t : List Shoe) (c : Str) :
    countryQty (s :: t) c =
      (if s.country = c then s.quantity else 0) + countryQty t c := by
  by_cases h : s.country = c <;> simp [countryQty, List.filter_cons, h]

/-- Splitting the per-country product count at a cons cell. -/
theorem countryCount_cons (s : Shoe) (t : List Shoe) (c : Str) :
    countryCount (s :: t) c =
      (if s.country = c then 1 else 0) + countryCount t c := by
  by_cases h : s.country = c
  · simp [countryCount, List.filter_cons, h]
    omega
  · simp [countryCount, List.filter_cons, h]

/-- Effect of one aggregation step on the lookup of a country row. -/
theorem statFor_updateStats (acc : List CStat) (s : Shoe) (c : Str) :
    statFor (updateStats acc s) c =
      if s.country = c then
        match statFor acc c with
        | some e => some ⟨e.country, e.totalValue + s.cost * (s.quantity : ℚ),
            e.totalQuantity + s.quantity, e.products + 1⟩
        | none => some ⟨s.country, s.cost * (s.quantity : ℚ), s.quantity, 1⟩
      else statFor acc c := by
  induction acc with
  | nil =>
    by_cases h : s.country = c <;> simp [updateStats, statFor, h]
  | cons e es ih =>
    by_cases he : e.country = s.country
    · simp only [updateStats, if_pos he]
      by_cases hc : s.country = c
      · have hec : e.country = c := he.trans hc
        simp [statFor, hec, hc]
      · have hec : e.country ≠ c := fun hh => hc (he.symm.trans hh)
        simp [statFor, hec, hc]
    · simp only [updateStats, if_neg he]
      by_cases hec : e.country = c
      · have hsc : s.country ≠ c := fun hh => he (hec.trans hh.symm)
        simp [statFor, hec, hsc]
      · simp [statFor, hec, ih]

/-- Lookup of a country row after aggregating a list of records: the row
accumulates exactly the filtered totals of that country. -/
theorem statFor_foldl : ∀ (l : List Shoe) (acc : List CStat) (c : Str),
    statFor (l.foldl updateStats acc) c =
      match statFor acc c with
      | some e => some ⟨e.country, e.totalValue + countryValue l c,
          e.totalQuantity + countryQty l c, e.products + countryCount l c⟩
      | none =>
        if countryCount l c = 0 then none
        else some ⟨c, countryValue l c, countryQty l c, countryCount l c⟩ := by
  intro l
  induction l with
  | nil =>
    intro acc c
    cases h : statFor acc c with
    | some e => cases e; simp [countryValue, countryQty, countryCount, h]
    | none => simp [countryValue, countryQty, countryCount, h]
  | cons s t ih =>
    intro acc c
    rw [List.foldl_cons, ih (updateStats acc s) c, statFor_updateStats]
    by_cases hsc : s.country = c
    · rw [if_pos hsc]
      cases h : statFor acc c with
      | some e =>
        simp only [countryValue_cons, countryQty_cons, countryCount_cons, if_pos hsc,
          Option.some.injEq, CStat.mk.injEq]
        ring_nf
        exact ⟨trivial, trivial, trivial, trivial⟩
      | none =>
        have hcount : ¬(1 + countryCount t c = 0) := by omega
        simp only [countryValue_cons, countryQty_cons, countryCount_cons, if_pos hsc,
          if_neg hcount, Option.some.injEq, CStat.mk.injEq]
        exact ⟨hsc, trivial, trivial, trivial⟩
    · rw [if_neg hsc]
      cases h : statFor acc c with
      | some e =>
        simp only [countryValue_cons, countryQty_cons, countryCount_cons, if_neg hsc,
          Option.some.injEq, CStat.mk.injEq]
        ring_nf
        exact ⟨trivial, trivial, trivial, trivial⟩
      | none =>
        simp only [countryValue_cons, countryQty_cons, countryCount_cons, if_neg hsc,
          zero_add]

/-- The aggregation step either keeps the country list or appends the new
country at the end. -/
theorem map_country_updateStats (acc : List CStat) (s : Shoe) :
    (updateStats acc s).map CStat.country =
      if s.country ∈ acc.map CStat.country then acc.map CStat.country
      else acc.map CStat.country ++ [s.country] := by
  induction acc with
  | nil => simp [updateStats]
  | cons e es ih =>
    by_cases he : e.country = s.country
    · simp [updateStats, he]
    · have hne : ¬ s.country = e.country := fun hh => he hh.symm
      by_cases hm : s.country ∈ es.map CStat.country <;>
        simp [updateStats, he, ih, hm, hne]

/-- Aggregation preserves distinctness of the country keys. -/
theorem foldl_updateStats_nodup : ∀ (l : List Shoe) (acc : List CStat),
    (acc.map CStat.country).Nodup →
    ((l.foldl updateStats acc).map CStat.country).Nodup := by
  intro l
  induction l with
  | nil => intro acc h; exact h
  | cons s t ih =>
    intro acc h
    rw [List.foldl_cons]
    apply ih
    rw [map_country_updateStats]
    by_cases hm : s.country ∈ acc.map CStat.country
    · rwa [if_pos hm]
    · rw [if_neg hm]
      simp [List.nodup_append, h, hm]

/-- The country keys of the aggregated rows are distinct. -/
theorem groups_nodup (store : List Shoe) :
    ((store.foldl updateStats []).map CStat.country).Nodup :=
  foldl_updateStats_nodup store [] (by simp)

/-- On a row list with distinct countries, lookup of the country of a
member returns that member. -/
theorem statFor_of_mem : ∀ (l : List CStat),
    (l.map CStat.country).Nodup → ∀ e ∈ l, statFor l e.country = some e := by
  intro l
  induction l with
  | nil => intro _ e he; cases he
  | cons f fs ih =>
    intro hnd e he
    rcases List.mem_cons.mp he with rfl | hfs
    · simp [statFor]
    · have hnotin : f.country ∉ fs.map CStat.country := by
        have := List.nodup_cons.mp hnd
        simpa using this.1
      have hne : f.country ≠ e.country := by
        intro hc
        exact hnotin (hc ▸ List.mem_map.mpr ⟨e, hfs, rfl⟩)
      simp [statFor, hne, ih (List.nodup_cons.mp hnd).2 e hfs]

/-- Membership in a stable descending insertion. -/
theorem mem_insertDesc (key : CStat → ℚ) (x : CStat) :
    ∀ (l : List CStat) (z : CStat), z ∈ insertDesc key x l ↔ z = x ∨ z ∈ l := by
  intro l z
  induction l with
  | nil => simp [insertDesc]
  | cons y ys ih =>
    by_cases h : key x < key y
    · simp only [insertDesc, if_pos h, List.mem_cons, ih]
      tauto
    · simp only [insertDesc, if_neg h, List.mem_cons]

/-- A stable descending insertion permutes the cons. -/
theorem insertDesc_perm (key : CStat → ℚ) (x : CStat) :
    ∀ l : List CStat, List.Perm (insertDesc key x l) (x :: l) := by
  intro l
  induction l with
  | nil => simp [insertDesc]
  | cons y ys ih =>
    by_cases h : key x < key y
    · simp only [insertDesc, if_pos h]
      exact List.Perm.trans (List.Perm.cons y ih) (List.Perm.swap x y ys)
    · simp only [insertDesc, if_neg h]
      exact List.Perm.refl _

/-- The stable descending sort permutes its input. -/
theorem sortDesc_perm (key : CStat → ℚ) :
    ∀ l : List CStat, List.Perm (sortDesc key l) l := by
  intro l
  induction l with
  | nil => simp [sortDesc]
  | cons x xs ih =>
    exact List.Perm.trans (insertDesc_perm key x (sortDesc key xs))
      (List.Perm.cons x ih)

/-- Inserting into a descending-sorted list keeps it sorted. -/
theorem pairwise_insertDesc (key : CStat → ℚ) (x : CStat) :
    ∀ l : List CStat, List.Pairwise (fun a b => key b ≤ key a) l →
      List.Pairwise (fun a b => key b ≤ key a) (insertDesc key x l) := by
  intro l
  induction l with
  | nil => intro _; simp [insertDesc]
  | cons y ys ih =>
    intro h
    rcases List.pairwise_cons.mp h with ⟨hy, hys⟩
    by_cases hlt : key x < key y
    · simp only [insertDesc, if_pos hlt]
      refine List.pairwise_cons.mpr ⟨?_, ih hys⟩
      intro z hz
      rcases (mem_insertDesc key x ys z).mp hz with rfl | hz'
      · exact le_of_lt hlt
      · exact hy z hz'
    · simp only [insertDesc, if_neg hlt]
      refine List.pairwise_cons.mpr ⟨?_, h⟩
      intro z hz
      rcases List.mem_cons.mp hz with rfl | hz'
      · exact not_lt.mp hlt
      · exact le_trans (hy z hz') (not_lt.mp hlt)

/-- The stable descending sort sorts. -/
theorem sortDesc_pairwise (key : CStat → ℚ) :
    ∀ l : List CStat, List.Pairwise (fun a b => key b ≤ key a) (sortDesc key l) := by
  intro l
  induction l with
  | nil => simp [sortDesc]
  | cons x xs ih => exact pairwise_insertDesc key x (sortDesc key xs) ih

/-- Filtering one key value through a stable descending insertion: the
inserted element goes in front of its key class and the rest is
untouched. -/
theorem filter_insertDesc (key : CStat → ℚ) (x : CStat) (v : ℚ) :
    ∀ l : List CStat,
      (insertDesc key x l).filter (fun e => decide (key e = v)) =
        if key x = v then x :: l.filter (fun e => decide (key e = v))
        else l.filter (fun e => decide (key e = v)) := by
  intro l
  induction l with
  | nil => by_cases hxv : key x = v <;> simp [insertDesc, hxv]
  | cons y ys ih =>
    by_cases hlt : key x < key y
    · simp only [insertDesc, if_pos hlt]
      by_cases hxv : key x = v
      · rw [if_pos hxv]
        have hyv : ¬ key y = v := by
          intro hyv
          exact absurd hlt (by rw [hxv.trans hyv.symm]; exact lt_irrefl _)
        simp [List.filter_cons, hyv, ih, hxv]
      · rw [if_neg hxv]
        by_cases hyv : key y = v <;> simp [List.filter_cons, hyv, ih, hxv]
    · simp only [insertDesc, if_neg hlt]
      by_cases hxv : key x = v
      · simp [List.filter_cons, hxv]
      · simp [List.filter_cons, hxv]

/-- Stability of the descending sort: each class of equal keys appears in
the output in its original relative order. -/
theorem sortDesc_filter_stable (key : CStat → ℚ) (v : ℚ) :
    ∀ l : List CStat,
      (sortDesc key l).filter (fun e => decide (key e = v)) =
        l.filter (fun e => decide (key e = v)) := by
  intro l
  induction l with
  | nil => rfl
  | cons x xs ih =>
    rw [show sortDesc key (x :: xs) = insertDesc key x (sortDesc key xs) from rfl]
    rw [filter_insertDesc]
    by_cases hxv : key x = v
    · rw [if_pos hxv, ih, List.filter_cons, if_pos (by simpa using hxv)]
    · rw [if_neg hxv, ih, List.filter_cons, if_neg (by simpa using hxv)]

/-- A digit character maps back to its value. -/
theorem charDigitVal_digitCharOf : ∀ d, d < 10 → charDigitVal (digitCharOf d) = d := by
  decide

/-- A digit character is a digit. -/
theorem isDigitCh_digitCharOf : ∀ d, d < 10 → isDigitCh (digitCharOf d) = true := by
  decide

/-- A digit character is none of the special characters of the formats
used here, and is not whitespace. -/
theorem isDigitCh_props (c : Char) (h : isDigitCh c = true) :
    c ≠ '-' ∧ c ≠ '+' ∧ c ≠ ',' ∧ c ≠ '.' ∧ c ≠ '\n' ∧ isSpaceCh c = false := by
  refine ⟨?_, ?_, ?_, ?_, ?_, ?_⟩
  · intro hc; subst hc; exact absurd h (by decide)
  · intro hc; subst hc; exact absurd h (by decide)
  · intro hc; subst hc; exact absurd h (by decide)
  · intro hc; subst hc; exact absurd h (by decide)
  · intro hc; subst hc; exact absurd h (by decide)
  · cases hsp : isSpaceCh c with
    | false => rfl
    | true =>
      rcases of_decide_eq_true hsp with h1 | h1 | h1 | h1 <;>
        (subst h1; exact absurd h (by decide))

/-- The digit-string fold in terms of Nat.ofDigits. -/
theorem foldl_digits_eq (l : Str) : ∀ a : ℕ,
    l.foldl (fun a c => 10 * a + charDigitVal c) a =
      Nat.ofDigits 10 ((l.map charDigitVal).reverse) + a * 10 ^ l.length := by
  induction l with
  | nil => intro a; simp [Nat.ofDigits]
  | cons c t ih =>
    intro a
    rw [List.foldl_cons, ih (10 * a + charDigitVal c)]
    rw [List.map_cons, List.reverse_cons, Nat.ofDigits_append, Nat.ofDigits_singleton]
    simp [List.length_cons]
    ring

/-- The digit-string value of a big-endian digit list. -/
theorem digitsToNat_eq (l : Str) :
    digitsToNat l = Nat.ofDigits 10 ((l.map charDigitVal).reverse) := by
  rw [digitsToNat, foldl_digits_eq]
  simp

/-- Correctness of the fuelled digit printer against Nat.digits. -/
theorem natStrAux_eq : ∀ n fuel, n ≤ fuel →
    natStrAux fuel n = ((Nat.digits 10 n).map digitCharOf).reverse := by
  intro n
  induction n using Nat.strong_induction_on with
  | _ n ih =>
    intro fuel hle
    cases fuel with
    | zero =>
      have hn : n = 0 := by omega
      subst hn
      simp [natStrAux]
    | succ f =>
      cases n with
      | zero => simp [natStrAux]
      | succ m =>
        have hdiv : (m + 1) / 10 < m + 1 := Nat.div_lt_self (by omega) (by omega)
        have hdf : (m + 1) / 10 ≤ f := by omega
        rw [show natStrAux (f + 1) (m + 1) =
            natStrAux f ((m + 1) / 10) ++ [digitCharOf ((m + 1) % 10)] from rfl]
        rw [ih ((m + 1) / 10) hdiv f hdf]
        rw [Nat.digits_def' (by omega : 1 < 10) (by omega : 0 < m + 1)]
        rw [List.map_cons, List.reverse_cons]

/-- Every character of natStr is a digit. -/
theorem natStr_digits (n : ℕ) : ∀ c ∈ natStr n, isDigitCh c = true := by
  intro c hc
  by_cases hn : n = 0
  · subst hn
    rw [show natStr 0 = ['0'] from rfl] at hc
    simp only [List.mem_singleton] at hc
    subst hc
    decide
  · rw [natStr, if_neg hn, natStrAux_eq n n (le_refl n)] at hc
    rw [List.mem_reverse, List.mem_map] at hc
    obtain ⟨d, hd, rfl⟩ := hc
    exact isDigitCh_digitCharOf d (Nat.digits_lt_base (by omega) hd)

/-- natStr is never empty. -/
theorem natStr_ne_nil (n : ℕ) : natStr n ≠ [] := by
  by_cases hn : n = 0
  · subst hn; simp [natStr]
  · rw [natStr, if_neg hn, natStrAux_eq n n (le_refl n)]
    simp [Nat.digits_ne_nil_iff_ne_zero.mpr hn]

/-- Reading back the printed digits of a natural number. -/
theorem digitsToNat_natStr (n : ℕ) : digitsToNat (natStr n) = n := by
  by_cases hn : n = 0
  · subst hn; decide
  · rw [natStr, if_neg hn, natStrAux_eq n n (le_refl n), digitsToNat_eq]
    rw [List.map_reverse, List.reverse_reverse, List.map_map]
    have hmap : List.map (charDigitVal ∘ digitCharOf) (Nat.digits 10 n) =
        List.map id (Nat.digits 10 n) :=
      List.map_congr_left (fun d hd => by
        simp only [Function.comp_apply, id_eq]
        exact charDigitVal_digitCharOf d (Nat.digits_lt_base (by omega) hd))
    rw [hmap, List.map_id]
    exact Nat.ofDigits_digits 10 n

/-- Digit count of a number below a power of ten. -/
theorem natStr_len_le (m k : ℕ) (hk : 0 < k) (hm : m < 10 ^ k) :
    (natStr m).length ≤ k := by
  by_cases hm0 : m = 0
  · subst hm0; simp [natStr]; omega
  · rw [natStr, if_neg hm0, natStrAux_eq m m (le_refl m)]
    rw [List.length_reverse, List.length_map]
    rw [Nat.digits_len 10 m (by omega) hm0]
    have := Nat.log_lt_of_lt_pow hm0 hm
    omega

/-- dropWhile is the identity when the head fails the test. -/
theorem dropWhile_eq_self_of_head {p : Char → Bool} (l : Str)
    (h : ∀ c, l.head? = some c → p c = false) : l.dropWhile p = l := by
  cases l with
  | nil => rfl
  | cons c t =>
    rw [List.dropWhile_cons, if_neg]
    rw [h c rfl]
    simp

/-- strip is the identity when neither end is whitespace. -/
theorem trimStr_eq_self (l : Str)
    (hh : ∀ c, l.head? = some c → isSpaceCh c = false)
    (hl : ∀ c, l.getLast? = some c → isSpaceCh c = false) : trimStr l = l := by
  rw [trimStr, dropWhile_eq_self_of_head l hh]
  rw [dropWhile_eq_self_of_head l.reverse (by rw [List.head?_reverse]; exact hl)]
  exact List.reverse_reverse l

/-- The head of a list is a member. -/
theorem head?_some_mem {α : Type} (l : List α) (c : α) (h : l.head? = some c) :
    c ∈ l := by
  cases l <;> simp_all

/-- strip is the identity on strings without whitespace. -/
theorem trimStr_eq_self_forall (l : Str)
    (h : ∀ c ∈ l, isSpaceCh c = false) : trimStr l = l := by
  refine trimStr_eq_self l (fun c hc => ?_) (fun c hc => ?_)
  · exact h c (head?_some_mem l c hc)
  · have hrev : l.reverse.head? = some c := by rw [List.head?_reverse]; exact hc
    exact h c (List.mem_reverse.mp (head?_some_mem l.reverse c hrev))

/-- The splitter never returns an empty field list. -/
theorem splitOnChar_ne_nil (sep : Char) : ∀ l : Str, splitOnChar sep l ≠ [] := by
  intro l
  cases l with
  | nil => simp [splitOnChar]
  | cons c cs =>
    rw [show splitOnChar sep (c :: cs) =
        match splitOnChar sep cs with
        | [] => [[]]
        | f :: r => if c = sep then [] :: f :: r else (c :: f) :: r from rfl]
    cases splitOnChar sep cs with
    | nil => simp
    | cons f r =>
      by_cases hc : c = sep <;> simp [hc]

/-- Splitting a string without the separator gives one field. -/
theorem splitOnChar_single (sep : Char) : ∀ l : Str, sep ∉ l →
    splitOnChar sep l = [l] := by
  intro l
  induction l with
  | nil => intro _; rfl
  | cons c cs ih =>
    intro h
    have hc : c ≠ sep := fun hh => h (hh ▸ List.mem_cons_self c cs)
    have hcs : sep ∉ cs := fun hh => h (List.mem_cons_of_mem c hh)
    rw [show splitOnChar sep (c :: cs) =
        match splitOnChar sep cs with
        | [] => [[]]
        | f :: r => if c = sep then [] :: f :: r else (c :: f) :: r from rfl]
    rw [ih hcs]
    simp [hc]

/-- Splitting at the first separator occurrence. -/
theorem splitOnChar_append (sep : Char) : ∀ (a rest : Str), sep ∉ a →
    splitOnChar sep (a ++ sep :: rest) = a :: splitOnChar sep rest := by
  intro a
  induction a with
  | nil =>
    intro rest _
    rw [List.nil_append]
    rw [show splitOnChar sep (sep :: rest) =
        match splitOnChar sep rest with
        | [] => [[]]
        | f :: r => if sep = sep then [] :: f :: r else (sep :: f) :: r from rfl]
    cases hs : splitOnChar sep rest with
    | nil => exact absurd hs (splitOnChar_ne_nil sep rest)
    | cons f r => simp
  | cons c a' ih =>
    intro rest h
    have hc : c ≠ sep := fun hh => h (hh ▸ List.mem_cons_self c a')
    have ha' : sep ∉ a' := fun hh => h (List.mem_cons_of_mem c hh)
    rw [List.cons_append]
    rw [show splitOnChar sep (c :: (a' ++ sep :: rest)) =
        match splitOnChar sep (a' ++ sep :: rest) with
        | [] => [[]]
        | f :: r => if c = sep then [] :: f :: r else (c :: f) :: r from rfl]
    rw [ih rest ha']
    simp [hc]

/-- A divisor of a power of ten divides the power of ten with exponent
bounded by itself. -/
theorem exists_small_pow_ten (d : ℕ) (hd : d ≠ 0) (h : ∃ L, d ∣ 10 ^ L) :
    ∃ k, k ≤ d ∧ d ∣ 10 ^ k := by
  obtain ⟨L, hL⟩ := h
  have hdpos : 0 < d := Nat.pos_of_ne_zero hd
  have h2 : 2 ^ d.factorization 2 ∣ d := Nat.ordProj_dvd d 2
  have h5 : 5 ^ d.factorization 5 ∣ d := Nat.ordProj_dvd d 5
  have ha : d.factorization 2 ≤ d := by
    have h1 := Nat.le_of_dvd hdpos h2
    have h2' := Nat.lt_two_pow (d.factorization 2)
    omega
  have hb : d.factorization 5 ≤ d := by
    have h1 := Nat.le_of_dvd hdpos h5
    have h2' := Nat.lt_two_pow (d.factorization 5)
    have h3 : (2:ℕ) ^ d.factorization 5 ≤ 5 ^ d.factorization 5 :=
      Nat.pow_le_pow_left (by omega) _
    omega
  have hfact10 : (10 : ℕ).factorization = Nat.factorization 2 + Nat.factorization 5 := by
    rw [show (10 : ℕ) = 2 * 5 from rfl]
    exact Nat.factorization_mul (by omega) (by omega)
  have hother : ∀ p, p ≠ 2 → p ≠ 5 → d.factorization p = 0 := by
    intro p hp2 hp5
    have hle := (Nat.factorization_le_iff_dvd hd (by positivity)).mpr hL
    have hp := (Finsupp.le_def.mp hle) p
    rw [Nat.factorization_pow, hfact10] at hp
    rw [Nat.Prime.factorization (by norm_num : Nat.Prime 2),
      Nat.Prime.factorization (by norm_num : Nat.Prime 5)] at hp
    simp only [Finsupp.smul_apply, Finsupp.add_apply, Finsupp.single_apply,
      smul_eq_mul, if_neg (Ne.symm hp2), if_neg (Ne.symm hp5),
      mul_zero, add_zero] at hp
    omega
  have hdvd : d ∣ 2 ^ d.factorization 2 * 5 ^ d.factorization 5 := by
    refine (Nat.factorization_le_iff_dvd hd (by positivity)).mp ?_
    rw [Finsupp.le_def]
    intro p
    rw [Nat.factorization_mul (by positivity) (by positivity),
      Nat.factorization_pow, Nat.factorization_pow]
    rw [Nat.Prime.factorization (by norm_num : Nat.Prime 2),
      Nat.Prime.factorization (by norm_num : Nat.Prime 5)]
    by_cases hp2 : p = 2
    · subst hp2
      simp [Finsupp.single_apply, Finsupp.smul_apply, Finsupp.add_apply, smul_eq_mul]
    · by_cases hp5 : p = 5
      · subst hp5
        simp [Finsupp.single_apply, Finsupp.smul_apply, Finsupp.add_apply, smul_eq_mul]
      · rw [hother p hp2 hp5]
        exact Nat.zero_le _
  refine ⟨max (d.factorization 2) (d.factorization 5), by omega, ?_⟩
  refine dvd_trans hdvd ?_
  rw [show (10 : ℕ) = 2 * 5 from rfl, mul_pow]
  exact mul_dvd_mul (pow_dvd_pow 2 (le_max_left _ _)) (pow_dvd_pow 5 (le_max_right _ _))

/-- The searched exponent does divide, for decimal denominators. -/
theorem decExp_dvd (d : ℕ) (hd : d ≠ 0) (h : ∃ L, d ∣ 10 ^ L) :
    d ∣ 10 ^ decExp d := by
  obtain ⟨k, hkd, hk⟩ := exists_small_pow_ten d hd h
  have hmem : k ∈ List.range (d + 1) := List.mem_range.mpr (by omega)
  have hsome : (((List.range (d + 1)).find?
      (fun k => decide (d ∣ 10 ^ k)))).isSome = true :=
    List.find?_isSome.mpr ⟨k, hmem, by simpa using hk⟩
  obtain ⟨k', hk'⟩ := Option.isSome_iff_exists.mp hsome
  rw [decExp, hk']
  simpa using List.find?_some hk'

/-- The denominator of any value of the unsigned float parser divides a
power of ten. -/
theorem pyUnsignedFloat_den_dvd (l : Str) (q : ℚ) (h : pyUnsignedFloat l = some q) :
    ∃ L, q.den ∣ 10 ^ L := by
  rcases hs : splitOnChar '.' l with _ | ⟨a, _ | ⟨b, _ | ⟨c, r⟩⟩⟩ <;>
    simp only [pyUnsignedFloat, hs] at h
  · exact absurd h (by simp)
  · rcases hpu : pyUnsignedInt a with _ | n <;> rw [hpu] at h
    · exact absurd h (by simp)
    · have hq : q = (n : ℚ) := by simpa using h.symm
      exact ⟨0, by rw [hq, Rat.den_natCast]; exact one_dvd _⟩
  · by_cases hcond : (!(a.isEmpty && b.isEmpty) && a.all isDigitCh && b.all isDigitCh)
      = true
    · rw [if_pos hcond] at h
      have hq : q = (digitsToNat a : ℚ) + (digitsToNat b : ℚ) / 10 ^ b.length :=
        (Option.some.inj h).symm
      refine ⟨b.length, ?_⟩
      have hform : q = Rat.divInt ((digitsToNat a : ℤ) * 10 ^ b.length + digitsToNat b)
          ((10 : ℤ) ^ b.length) := by
        rw [Rat.divInt_eq_div, hq]
        have h10 : ((10 : ℚ) ^ b.length) ≠ 0 := by positivity
        field_simp
      have hdvd := Rat.den_dvd ((digitsToNat a : ℤ) * 10 ^ b.length + digitsToNat b)
        ((10 : ℤ) ^ b.length)
      rw [← hform] at hdvd
      have hcast : ((q.den : ℤ)) ∣ ((10 ^ b.length : ℕ) : ℤ) := by
        push_cast
        exact_mod_cast hdvd
      exact_mod_cast hcast
    · rw [if_neg hcond] at h
      exact absurd h (by simp)
  · exact absurd h (by simp)

/-- The denominator of any value of float() divides a power of ten: every
cost the program stores is a decimal rational. -/
theorem pyfloat_den_dvd (s : Str) (q : ℚ) (h : pyfloat s = some q) :
    ∃ L, q.den ∣ 10 ^ L := by
  rw [pyfloat] at h
  by_cases h1 : (trimStr s).head? = some '-'
  · rw [if_pos h1] at h
    rcases hpu : pyUnsignedFloat (trimStr s).tail with _ | q' <;> rw [hpu] at h
    · cases h
    · have hqq : q = -q' := by simpa using h.symm
      obtain ⟨L, hL⟩ := pyUnsignedFloat_den_dvd _ q' hpu
      refine ⟨L, ?_⟩
      rw [hqq, Rat.neg_den]
      exact hL
  · rw [if_neg h1] at h
    by_cases h2 : (trimStr s).head? = some '+'
    · rw [if_pos h2] at h
      exact pyUnsignedFloat_den_dvd _ q h
    · rw [if_neg h2] at h
      exact pyUnsignedFloat_den_dvd _ q h

/-- Parsing back the printed digits of a natural number. -/
theorem pyUnsignedInt_natStr (n : ℕ) : pyUnsignedInt (natStr n) = some n := by
  have hall : (natStr n).all isDigitCh = true :=
    List.all_eq_true.mpr (fun c hc => natStr_digits n c hc)
  have hne : (natStr n).isEmpty = false := by
    cases hh : natStr n with
    | nil => exact absurd hh (natStr_ne_nil n)
    | cons c t => rfl
  rw [pyUnsignedInt, hne, hall]
  simp [digitsToNat_natStr]

/-- Parsing back the printed form of a non-negative integer. -/
theorem pyint_strInt (z : ℤ) (hz : 0 ≤ z) : pyint (strInt z) = some z := by
  have hlt : ¬ z < 0 := by omega
  rw [strInt, if_neg hlt]
  have hdig := natStr_digits z.toNat
  have htrim : trimStr (natStr z.toNat) = natStr z.toNat :=
    trimStr_eq_self_forall _ (fun c hc => (isDigitCh_props c (hdig c hc)).2.2.2.2.2)
  obtain ⟨c0, t0, hc0⟩ := List.exists_cons_of_ne_nil (natStr_ne_nil z.toNat)
  have hd0 : isDigitCh c0 = true := hdig c0 (by rw [hc0]; exact List.mem_cons_self c0 t0)
  have hne_minus : (natStr z.toNat).head? ≠ some '-' := by
    rw [hc0]
    intro hcontra
    simp at hcontra
    exact (isDigitCh_props c0 hd0).1 hcontra
  have hne_plus : (natStr z.toNat).head? ≠ some '+' := by
    rw [hc0]
    intro hcontra
    simp at hcontra
    exact (isDigitCh_props c0 hd0).2.1 hcontra
  rw [pyint]
  simp only [htrim, if_neg hne_minus, if_neg hne_plus]
  rw [pyUnsignedInt_natStr]
  simp [Int.toNat_of_nonneg hz]

/-- Leading zeros do not change the digit-string value. -/
theorem digitsToNat_replicate_zero : ∀ (z : ℕ) (x : Str),
    digitsToNat (List.replicate z '0' ++ x) = digitsToNat x := by
  intro z
  induction z with
  | zero => intro x; rfl
  | succ z ih =>
    intro x
    rw [List.replicate_succ, List.cons_append, digitsToNat, List.foldl_cons]
    rw [show (10 * 0 + charDigitVal '0') = 0 from by decide]
    exact ih x

/-- Parsing a digit string, a dot and a digit string. -/
theorem pyfloat_digits_string (a b : Str) (ha : a ≠ [])
    (hadig : ∀ c ∈ a, isDigitCh c = true) (hbdig : ∀ c ∈ b, isDigitCh c = true) :
    pyfloat (a ++ '.' :: b) =
      some ((digitsToNat a : ℚ) + (digitsToNat b : ℚ) / 10 ^ b.length) := by
  have hchars : ∀ c ∈ a ++ '.' :: b, isSpaceCh c = false := by
    intro c hc
    rcases List.mem_append.mp hc with h | h
    · exact (isDigitCh_props c (hadig c h)).2.2.2.2.2
    · rcases List.mem_cons.mp h with rfl | h
      · decide
      · exact (isDigitCh_props c (hbdig c h)).2.2.2.2.2
  have htrim := trimStr_eq_self_forall _ hchars
  obtain ⟨c0, t0, hc0⟩ := List.exists_cons_of_ne_nil ha
  have hd0 : isDigitCh c0 = true :=
    hadig c0 (by rw [hc0]; exact List.mem_cons_self c0 t0)
  have hhead : (a ++ '.' :: b).head? = some c0 := by rw [hc0]; rfl
  have hm : ¬ (a ++ '.' :: b).head? = some '-' := by
    rw [hhead]
    intro hcc
    simp only [Option.some.injEq] at hcc
    exact (isDigitCh_props c0 hd0).1 hcc
  have hp : ¬ (a ++ '.' :: b).head? = some '+' := by
    rw [hhead]
    intro hcc
    simp only [Option.some.injEq] at hcc
    exact (isDigitCh_props c0 hd0).2.1 hcc
  have hdota : '.' ∉ a := fun hmem => (isDigitCh_props '.' (hadig '.' hmem)).2.2.2.1 rfl
  have hdotb : '.' ∉ b := fun hmem => (isDigitCh_props '.' (hbdig '.' hmem)).2.2.2.1 rfl
  rw [pyfloat]
  simp only [htrim, if_neg hm, if_neg hp]
  have hsplit : splitOnChar '.' (a ++ '.' :: b) = [a, b] := by
    rw [splitOnChar_append '.' a b hdota, splitOnChar_single '.' b hdotb]
  simp only [pyUnsignedFloat, hsplit]
  have hcond : (!(a.isEmpty && b.isEmpty) && a.all isDigitCh && b.all isDigitCh)
      = true := by
    have h1 : a.isEmpty = false := by rw [hc0]; rfl
    have h2 : a.all isDigitCh = true := List.all_eq_true.mpr hadig
    have h3 : b.all isDigitCh = true := List.all_eq_true.mpr hbdig
    rw [h1, h2, h3]
    rfl
  rw [if_pos hcond]

/-- Parsing back the printed decimal form, with the exponent and mantissa
made explicit. -/
theorem strFloatDigits_parse (q : ℚ) (k m : ℕ) (hq : q = (m : ℚ) / 10 ^ k) :
    pyfloat (strFloatDigits k m) = some q := by
  rw [strFloatDigits]
  by_cases hk0 : k = 0
  · rw [if_pos hk0]
    rw [pyfloat_digits_string (natStr m) ['0'] (natStr_ne_nil m) (natStr_digits m)
      (by intro c hc; simp only [List.mem_singleton] at hc; subst hc; decide)]
    rw [digitsToNat_natStr]
    rw [show digitsToNat ['0'] = 0 from by decide]
    rw [hq, hk0]
    norm_num
  · rw [if_neg hk0]
    have hkpos : 0 < k := Nat.pos_of_ne_zero hk0
    have hfrac_lt : m % 10 ^ k < 10 ^ k := Nat.mod_lt m (by positivity)
    have hlen : (natStr (m % 10 ^ k)).length ≤ k := natStr_len_le _ k hkpos hfrac_lt
    set B : Str := List.replicate (k - (natStr (m % 10 ^ k)).length) '0' ++
      natStr (m % 10 ^ k) with hBdef
    have hBdig : ∀ c ∈ B, isDigitCh c = true := by
      intro c hc
      rcases List.mem_append.mp hc with h | h
      · rw [List.eq_of_mem_replicate h]; decide
      · exact natStr_digits _ c h
    have hBlen : B.length = k := by
      rw [hBdef, List.length_append, List.length_replicate]
      omega
    have hBval : digitsToNat B = m % 10 ^ k := by
      rw [hBdef, digitsToNat_replicate_zero, digitsToNat_natStr]
    rw [pyfloat_digits_string (natStr (m / 10 ^ k)) B (natStr_ne_nil _)
      (natStr_digits _) hBdig]
    rw [digitsToNat_natStr, hBval, hBlen, hq]
    have hsplit : (10 : ℕ) ^ k * (m / 10 ^ k) + m % 10 ^ k = m :=
      Nat.div_add_mod m (10 ^ k)
    have h10 : ((10 : ℚ) ^ k) ≠ 0 := by positivity
    rw [Option.some.injEq]
    have hcast := congrArg (fun n : ℕ => (n : ℚ)) hsplit
    push_cast at hcast
    rw [eq_div_iff h10, add_mul, div_mul_cancel₀ _ h10]
    linarith [hcast]

/-- Reading back the printed form of a non-negative decimal rational:
writing a cost with str(float) and parsing it with float() returns the
same rational. -/
theorem pyfloat_strFloat (q : ℚ) (h0 : 0 ≤ q) (hdvd : ∃ L, q.den ∣ 10 ^ L) :
    pyfloat (strFloat q) = some q := by
  have hneg : ¬ q < 0 := not_lt.mpr h0
  rw [strFloat, if_neg hneg, strFloatAbs]
  have hden : q.den ∣ 10 ^ decExp q.den := decExp_dvd q.den q.den_nz hdvd
  obtain ⟨cc, hcc⟩ := hden
  have hdQ : (q.den : ℚ) ≠ 0 := by exact_mod_cast q.den_nz
  have hcQ : ((10 : ℚ)) ^ decExp q.den = (q.den : ℚ) * (cc : ℚ) := by
    exact_mod_cast congrArg (fun n : ℕ => (n : ℚ)) hcc
  have hqden : q * (q.den : ℚ) = (q.num : ℚ) := by
    calc q * (q.den : ℚ) = ((q.num : ℚ) / (q.den : ℚ)) * (q.den : ℚ) := by
          rw [Rat.num_div_den]
      _ = (q.num : ℚ) := div_mul_cancel₀ _ hdQ
  have hqk : q * (10 : ℚ) ^ decExp q.den = ((q.num * cc : ℤ) : ℚ) := by
    rw [hcQ, ← mul_assoc, hqden]
    push_cast
    ring
  have hnum : (q * (10 : ℚ) ^ decExp q.den).num = q.num * cc := by
    rw [hqk, Rat.num_intCast]
  have hnumnn : 0 ≤ (q * (10 : ℚ) ^ decExp q.den).num := by
    rw [Rat.num_nonneg]
    positivity
  have hmQ : (((q * (10 : ℚ) ^ decExp q.den).num.toNat : ℕ) : ℚ)
      = q * (10 : ℚ) ^ decExp q.den := by
    have h1 : (((q * (10 : ℚ) ^ decExp q.den).num.toNat : ℕ) : ℤ)
        = (q * (10 : ℚ) ^ decExp q.den).num := Int.toNat_of_nonneg hnumnn
    have h2 : (((q * (10 : ℚ) ^ decExp q.den).num.toNat : ℕ) : ℚ)
        = (((q * (10 : ℚ) ^ decExp q.den).num : ℤ) : ℚ) := by
      exact_mod_cast congrArg (fun z : ℤ => (z : ℚ)) h1
    rw [h2, hnum, ← hqk]
  refine strFloatDigits_parse q (decExp q.den) ((q * 10 ^ decExp q.den).num.toNat) ?_
  rw [hmQ]
  have h10Q : ((10 : ℚ) ^ decExp q.den) ≠ 0 := by positivity
  field_simp

/-- Characters of the printed decimal: digits and the dot. -/
theorem strFloatDigits_chars (k m : ℕ) :
    ∀ c ∈ strFloatDigits k m, isDigitCh c = true ∨ c = '.' := by
  intro c hc
  rw [strFloatDigits] at hc
  by_cases hk0 : k = 0
  · rw [if_pos hk0] at hc
    rcases List.mem_append.mp hc with h | h
    · exact Or.inl (natStr_digits m c h)
    · rcases List.mem_cons.mp h with rfl | h
      · exact Or.inr rfl
      · simp only [List.mem_singleton] at h
        subst h
        exact Or.inl (by decide)
  · rw [if_neg hk0] at hc
    rcases List.mem_append.mp hc with h | h
    · exact Or.inl (natStr_digits _ c h)
    · rcases List.mem_cons.mp h with rfl | h
      · exact Or.inr rfl
      · rcases List.mem_append.mp h with h2 | h2
        · rw [List.eq_of_mem_replicate h2]
          exact Or.inl (by decide)
        · exact Or.inl (natStr_digits _ c h2)

/-- Characters of the printed cost of a non-negative value. -/
theorem strFloat_chars (q : ℚ) (h0 : 0 ≤ q) :
    ∀ c ∈ strFloat q, isDigitCh c = true ∨ c = '.' := by
  rw [strFloat, if_neg (not_lt.mpr h0), strFloatAbs]
  exact strFloatDigits_chars _ _

/-- Characters of the printed quantity of a non-negative value. -/
theorem strInt_chars (z : ℤ) (hz : 0 ≤ z) :
    ∀ c ∈ strInt z, isDigitCh c = true := by
  rw [strInt, if_neg (by omega : ¬ z < 0)]
  exact natStr_digits _

/-- The head of the reverse of an append with non-empty second part. -/
theorem rev_head_append (x y : Str) (hy : y ≠ []) :
    (x ++ y).reverse.head? = y.reverse.head? := by
  rw [List.reverse_append]
  exact List.head?_append_of_ne_nil _ (by simpa using hy)

/-- One record line written by the program is read back as exactly that
record by the read loop. -/
theorem loadLines_cons_shoeLine (sh : Shoe) (ls : List Str) (acc : List Shoe)
    (hcost_pos : 0 < sh.cost) (hcost_dec : ∃ L, sh.cost.den ∣ 10 ^ L)
    (hqty : 0 ≤ sh.quantity)
    (hc1 : ',' ∉ sh.country) (hc2 : ',' ∉ sh.code) (hc3 : ',' ∉ sh.product)
    (hhead : ∀ c, sh.country.head? = some c → isSpaceCh c = false) :
    loadLines (shoeLine sh :: ls) acc = loadLines ls (acc ++ [sh]) := by
  have hcost0 : 0 ≤ sh.cost := le_of_lt hcost_pos
  have hfloat := strFloat_chars sh.cost hcost0
  have hint := strInt_chars sh.quantity hqty
  have hint_ne : strInt sh.quantity ≠ [] := by
    rw [strInt, if_neg (by omega : ¬ sh.quantity < 0)]
    exact natStr_ne_nil _
  have hfloat_nc : ',' ∉ strFloat sh.cost := by
    intro hm
    rcases hfloat ',' hm with h | h
    · exact (isDigitCh_props ',' h).2.2.1 rfl
    · cases h
  have hint_nc : ',' ∉ strInt sh.quantity := fun hm =>
    (isDigitCh_props ',' (hint ',' hm)).2.2.1 rfl
  have htrim : trimStr (shoeLine sh) = shoeLine sh := by
    refine trimStr_eq_self _ ?_ ?_
    · intro c hc
      rw [shoeLine] at hc
      cases hcountry : sh.country with
      | nil =>
        rw [hcountry, List.nil_append, List.head?_cons] at hc
        injection hc with h
        subst h
        decide
      | cons c0 t0 =>
        rw [hcountry, List.cons_append, List.head?_cons] at hc
        injection hc with h
        subst h
        exact hhead c0 (by rw [hcountry]; rfl)
    · intro c hc
      rw [List.getLast?_eq_head?_reverse, shoeLine] at hc
      rw [rev_head_append _ _ (by simp)] at hc
      rw [show (',' :: (sh.code ++ ',' :: (sh.product ++
          (',' :: (strFloat sh.cost ++ ',' :: strInt sh.quantity))))) =
          [','] ++ (sh.code ++ ',' :: (sh.product ++
          (',' :: (strFloat sh.cost ++ ',' :: strInt sh.quantity)))) from rfl] at hc
      rw [rev_head_append _ _ (by simp)] at hc
      rw [rev_head_append _ _ (by simp)] at hc
      rw [show (',' :: (sh.product ++ (',' :: (strFloat sh.cost ++
          ',' :: strInt sh.quantity)))) = [','] ++ (sh.product ++
          (',' :: (strFloat sh.cost ++ ',' :: strInt sh.quantity))) from rfl] at hc
      rw [rev_head_append _ _ (by simp)] at hc
      rw [rev_head_append _ _ (by simp)] at hc
      rw [show (',' :: (strFloat sh.cost ++ ',' :: strInt sh.quantity)) =
          [','] ++ (strFloat sh.cost ++ ',' :: strInt sh.quantity) from rfl] at hc
      rw [rev_head_append _ _ (by simp)] at hc
      rw [rev_head_append _ _ (by simp)] at hc
      rw [show (',' :: strInt sh.quantity) = [','] ++ strInt sh.quantity from rfl] at hc
      rw [rev_head_append _ _ hint_ne] at hc
      have hmem : c ∈ strInt sh.quantity :=
        List.mem_reverse.mp (head?_some_mem _ c hc)
      exact (isDigitCh_props c (hint c hmem)).2.2.2.2.2
  have hsplit : splitOnChar ',' (shoeLine sh) =
      [sh.country, sh.code, sh.product, strFloat sh.cost, strInt sh.quantity] := by
    rw [shoeLine]
    rw [splitOnChar_append ',' sh.country _ hc1]
    rw [splitOnChar_append ',' sh.code _ hc2]
    rw [splitOnChar_append ',' sh.product _ hc3]
    rw [splitOnChar_append ',' (strFloat sh.cost) _ hfloat_nc]
    rw [splitOnChar_single ',' (strInt sh.quantity) hint_nc]
  have hparse : parseShoe [sh.country, sh.code, sh.product, strFloat sh.cost,
      strInt sh.quantity] = some sh := by
    rw [parseShoe]
    rw [pyfloat_strFloat sh.cost hcost0 hcost_dec, pyint_strInt sh.quantity hqty]
  rw [loadLines]
  simp only [htrim, hsplit, hparse, List.length_cons, List.length_nil]
  rfl

/-- A sequence of valid adds grows the store by the added records and
keeps the file reloadable to exactly the store. -/
theorem applyAdds_roundtrip : ∀ (adds : List AddInput) (store : List Shoe)
    (lines : List Str), (∀ a ∈ adds, ValidAdd a) →
    loadLines lines [] = (true, store) →
    (applyAdds (store, headerLine :: lines) adds).1 = store ++ adds.map shoeOf ∧
    ∃ lines', (applyAdds (store, headerLine :: lines) adds).2 = headerLine :: lines' ∧
      loadLines lines' [] = (true, store ++ adds.map shoeOf) := by
  intro adds
  induction adds with
  | nil =>
    intro store lines _ hload
    exact ⟨by simp [applyAdds], lines, by simp [applyAdds], by simpa using hload⟩
  | cons a rest ih =>
    intro store lines hvalid hload
    obtain ⟨hpos, hdec, hqty, hnc1, hnc2, hnc3, hn1, hn2, hn3, hhead⟩ :=
      hvalid a (List.mem_cons_self a rest)
    have hstep : applyAdds (store, headerLine :: lines) (a :: rest) =
        applyAdds (store ++ [shoeOf a],
          headerLine :: (lines ++ [shoeLine (shoeOf a)])) rest := by
      rw [applyAdds, List.foldl_cons]
      rfl
    have hload' : loadLines (lines ++ [shoeLine (shoeOf a)]) []
        = (true, store ++ [shoeOf a]) := by
      rw [loadLines_append, hload]
      rw [if_pos rfl]
      rw [loadLines_cons_shoeLine (shoeOf a) [] store hpos ⟨a.cost.den, hdec⟩ hqty
        hnc1 hnc2 hnc3 hhead]
      rfl
    obtain ⟨h1, lines', h2, h3⟩ := ih (store ++ [shoeOf a])
      (lines ++ [shoeLine (shoeOf a)])
      (fun x hx => hvalid x (List.mem_cons_of_mem a hx)) hload'
    refine ⟨?_, lines', ?_, ?_⟩
    · rw [hstep, h1]
      simp
    · rw [hstep, h2]
    · rw [h3]
      simp

/-! Claim theorems. -/

/-- C10: read_shoes_data clears the store before reading, so the store
after a load is a function of the file alone, and loading twice in a row
gives the same store as loading once. -/
theorem C10_load_determined_by_file (p₁ p₂ : List Shoe) (f : List Str) :
    read_shoes_data p₁ f = read_shoes_data p₂ f ∧
    read_shoes_data (read_shoes_data p₁ f).2 f = read_shoes_data p₁ f :=
  ⟨rfl, rfl⟩

/-- C1: on a file whose second record line has a non-numeric cost field,
the load aborts and reports failure, but the record of the preceding
well-formed line is still in the store, so the run does not start with an
empty record store as the claim and the program message state. -/
theorem C1_abort_keeps_preceding_records :
    (read_shoes_data [] [headerLine, lineGood, lineBadCost]).1 = false ∧
    (read_shoes_data [] [headerLine, lineGood, lineBadCost]).2.map Shoe.code
      = [['A', '1']] ∧
    (read_shoes_data [] [headerLine, lineGood, lineBadCost]).2 ≠ [] :=
  ⟨by decide, by decide, by decide⟩

/-- C5: on a non-empty store, re_stock selects via minQtyIdx a valid index
holding the minimum quantity whose every earlier index holds a strictly
larger quantity (first occurrence wins), and highest_qty returns the
record at maxQtyIdx, a valid index holding the maximum quantity whose
every earlier index holds a strictly smaller quantity. -/
theorem C5_min_max_first_occurrence (store : List Shoe) (h : store ≠ []) :
    (minQtyIdx store < store.length ∧
      (∀ j, j < store.length →
        (store.getD (minQtyIdx store) dShoe).quantity ≤ (store.getD j dShoe).quantity) ∧
      (∀ j, j < minQtyIdx store →
        (store.getD (minQtyIdx store) dShoe).quantity < (store.getD j dShoe).quantity)) ∧
    (maxQtyIdx store < store.length ∧
      (∀ j, j < store.length →
        (store.getD j dShoe).quantity ≤ (store.getD (maxQtyIdx store) dShoe).quantity) ∧
      (∀ j, j < maxQtyIdx store →
        (store.getD j dShoe).quantity < (store.getD (maxQtyIdx store) dShoe).quantity)) ∧
    highest_qty store = some (store.getD (maxQtyIdx store) dShoe) :=
  ⟨minQtyIdx_spec store h, maxQtyIdx_spec store h, by simp [highest_qty, h]⟩

/-- Witness for C5 at the example store with quantities 5, 2, 2, 9:
restock selects index 1 and the highest-quantity report the record with
quantity 9. -/
theorem C5_witness :
    minQtyIdx c5Store = 1 ∧ maxQtyIdx c5Store = 3 ∧
    (c5Store.getD (maxQtyIdx c5Store) dShoe).quantity = 9 ∧
    minQtyIdx c5Store < c5Store.length ∧
    highest_qty c5Store = some (c5Store.getD (maxQtyIdx c5Store) dShoe) :=
  ⟨by decide, by decide, by decide,
    (C5_min_max_first_occurrence c5Store (by decide)).1.1,
    (C5_min_max_first_occurrence c5Store (by decide)).2.2⟩

/-- C6: a confirmed restock with positive parsed increment k changes only
the selected first-minimum record, and of that record only the quantity,
which grows by exactly k. -/
theorem C6_restock_increments_only_min (store : List Shoe) (file : List Str)
    (confirm answer : Str) (k : ℤ) (hne : store ≠ [])
    (hc : lowerStr confirm = ['y', 'e', 's']) (ha : pyint answer = some k)
    (hk : 0 < k) :
    (re_stock store file confirm answer).1.length = store.length ∧
    (∀ j, j ≠ minQtyIdx store →
      (re_stock store file confirm answer).1.getD j dShoe = store.getD j dShoe) ∧
    (re_stock store file confirm answer).1.getD (minQtyIdx store) dShoe =
      ⟨(store.getD (minQtyIdx store) dShoe).country,
       (store.getD (minQtyIdx store) dShoe).code,
       (store.getD (minQtyIdx store) dShoe).product,
       (store.getD (minQtyIdx store) dShoe).cost,
       (store.getD (minQtyIdx store) dShoe).quantity + k⟩ := by
  rw [re_stock_eq_set store file confirm answer k hne hc ha hk]
  refine ⟨by simp, ?_, ?_⟩
  · intro j hj
    rw [List.getD_eq_getElem?_getD, List.getElem?_set,
      if_neg (fun hcontra => hj hcontra.symm), List.getD_eq_getElem?_getD]
  · rw [List.getD_eq_getElem?_getD, List.getElem?_set,
      if_pos rfl, if_pos (minQtyIdx_spec store hne).1]
    rfl

/-- Witness for C6: restocking the two-record store by 3 raises the
quantity of the selected record by exactly 3. -/
theorem C6_witness :
    (re_stock c6Store [headerLine] yesStr ("3".toList)).1.getD (minQtyIdx c6Store) dShoe =
      ⟨(c6Store.getD (minQtyIdx c6Store) dShoe).country,
       (c6Store.getD (minQtyIdx c6Store) dShoe).code,
       (c6Store.getD (minQtyIdx c6Store) dShoe).product,
       (c6Store.getD (minQtyIdx c6Store) dShoe).cost,
       (c6Store.getD (minQtyIdx c6Store) dShoe).quantity + 3⟩ :=
  (C6_restock_increments_only_min c6Store [headerLine] yesStr ("3".toList) 3
    (by decide) (by decide) (by decide) (by decide)).2.2

/-- C7: on a non-empty store, if the increment input does not parse as an
int or parses as a non-positive int (in particular zero), re_stock leaves
the store and the file exactly unchanged. -/
theorem C7_restock_abort_no_mutation (store : List Shoe) (file : List Str)
    (confirm answer : Str) (hne : store ≠ [])
    (habort : ∀ k, pyint answer = some k → k ≤ 0) :
    re_stock store file confirm answer = (store, file) := by
  simp only [re_stock, if_neg hne]
  by_cases hc : lowerStr confirm = ['y', 'e', 's']
  · simp only [if_pos hc]
    cases ha : pyint answer with
    | none => rfl
    | some k =>
      have hk : ¬(0 < k) := by have := habort k ha; omega
      simp only [if_neg hk]
  · simp only [if_neg hc]

/-- Witness for C7: an entered increment of zero is rejected and mutates
nothing. -/
theorem C7_witness :
    re_stock c6Store [headerLine] yesStr ("0".toList) = (c6Store, [headerLine]) :=
  C7_restock_abort_no_mutation c6Store [headerLine] yesStr ("0".toList) (by decide)
    (fun k hk => by
      rw [show pyint ("0".toList) = some 0 from by decide] at hk
      injection hk with h
      omega)

/-- C2 counterexample: loading a well-formed line with negative cost and
negative quantity succeeds and puts a record with quantity minus three
into the store, so records entering via load do not satisfy the claimed
invariant. -/
theorem C2_cex_load_skips_validation :
    (read_shoes_data [] [headerLine, lineNegative]).1 = true ∧
    (read_shoes_data [] [headerLine, lineNegative]).2.map Shoe.quantity = [-3] ∧
    ¬ StoreValid (read_shoes_data [] [headerLine, lineNegative]).2 := by
  refine ⟨by decide, by decide, fun hv => ?_⟩
  have h1 : (read_shoes_data [] [headerLine, lineNegative]).2.map Shoe.quantity
      = [-3] := by decide
  have h2 : ∀ q ∈ (read_shoes_data [] [headerLine, lineNegative]).2.map Shoe.quantity,
      0 ≤ q := by
    intro q hq
    obtain ⟨s, hs, rfl⟩ := List.mem_map.mp hq
    exact (hv s hs).2
  have h3 := h2 (-3) (by rw [h1]; simp)
  omega

/-- C2 amended: the invariant positive cost and non-negative quantity
holds for every record entering via the add operation and is preserved by
add and by restock on stores satisfying it; the load path performs no
such validation. -/
theorem C2_add_restock_preserve_invariant (store : List Shoe) (file : List Str) :
    (∀ country code product (cost : ℚ) (qty : ℤ), 0 < cost → 0 ≤ qty →
      StoreValid store →
      StoreValid (capture_shoes store file country code product cost qty).1) ∧
    (∀ confirm answer, StoreValid store →
      StoreValid (re_stock store file confirm answer).1) := by
  constructor
  · intro country code product cost qty hc hq hv s hs
    simp only [capture_shoes] at hs
    rcases List.mem_append.mp hs with h | h
    · exact hv s h
    · have hx : s = ⟨country, upperStr code, product, cost, qty⟩ := by simpa using h
      subst hx
      exact ⟨hc, hq⟩
  · intro confirm answer hv
    by_cases hne : store = []
    · subst hne
      simp [re_stock, StoreValid]
    · by_cases hc : lowerStr confirm = ['y', 'e', 's']
      · cases ha : pyint answer with
        | none => simp only [re_stock, if_neg hne, if_pos hc, ha]; exact hv
        | some k =>
          by_cases hk : 0 < k
          · rw [re_stock_eq_set store file confirm answer k hne hc ha hk]
            intro s hs
            rcases List.mem_or_eq_of_mem_set hs with h | h
            · exact hv s h
            · subst h
              have hlen := (minQtyIdx_spec store hne).1
              obtain ⟨hcost, hqty⟩ :=
                hv (store.getD (minQtyIdx store) dShoe) (getD_mem store _ dShoe hlen)
              refine ⟨hcost, ?_⟩
              show 0 ≤ (store.getD (minQtyIdx store) dShoe).quantity + k
              omega
          · simp only [re_stock, if_neg hne, if_pos hc, ha, if_neg hk]; exact hv
      · simp only [re_stock, if_neg hne, if_neg hc]; exact hv

/-- Witness for C2: one valid add into an empty store yields a store
satisfying the invariant. -/
theorem C2_witness :
    StoreValid (capture_shoes [] [headerLine] ("ZA".toList) ("A1".toList)
      ("P".toList) 1 5).1 :=
  (C2_add_restock_preserve_invariant [] [headerLine]).1 ("ZA".toList) ("A1".toList)
    ("P".toList) 1 5 (by decide) (by decide) (by simp [StoreValid])

/-- C3 counterexample: a record whose stored code is lowercase (as a
loaded record can be) matches the input air001 up to case, yet the search
reports not found, because only the input is uppercased before an exact
comparison. -/
theorem C3_cex_case_insensitive_fails :
    search_shoe c3Store c3Input = none ∧
    c3Store.getD 0 dShoe ∈ c3Store ∧
    specCaseMatch (c3Store.getD 0 dShoe) c3Input :=
  ⟨by decide, by decide, by decide⟩

/-- C3 amended: search uppercases the input and then performs an exact
case-sensitive comparison with stored codes: it reports not found exactly
when no stored code equals the uppercased input, any hit is the first
such record in store order, and on stores whose codes are all uppercase
(as every record created by add is) this coincides with the
case-insensitive matching the claim describes. -/
theorem C3_search_uppercases_input_only (store : List Shoe) (input : Str) :
    (search_shoe store input = none ↔ ∀ s ∈ store, s.code ≠ upperStr input) ∧
    (∀ s, search_shoe store input = some s →
      ∃ k, k < store.length ∧ store.getD k dShoe = s ∧ s.code = upperStr input ∧
        ∀ j, j < k → (store.getD j dShoe).code ≠ upperStr input) ∧
    ((∀ s ∈ store, upperStr s.code = s.code) →
      search_shoe store input = store.find? (fun s => decide (specCaseMatch s input))) := by
  refine ⟨?_, ?_, ?_⟩
  · rw [search_shoe, List.find?_eq_none]
    constructor
    · intro h s hs
      have := h s hs
      simpa using this
    · intro h s hs
      simpa using h s hs
  · intro s hfind
    rw [search_shoe] at hfind
    obtain ⟨k, hk, hgd, hpa, hfirst⟩ :=
      find?_first_index (fun s => decide (s.code = upperStr input)) dShoe store s hfind
    refine ⟨k, hk, hgd, by simpa using hpa, ?_⟩
    intro j hj
    simpa using hfirst j hj
  · induction store with
    | nil => intro _; rfl
    | cons s rest ih =>
      intro hall
      have hs := hall s (by simp)
      have hrest : ∀ x ∈ rest, upperStr x.code = x.code :=
        fun x hx => hall x (by simp [hx])
      have hpred : decide (s.code = upperStr input) = decide (specCaseMatch s input) := by
        simp only [specCaseMatch, hs]
      simp only [search_shoe] at ih ⊢
      rw [List.find?_cons, List.find?_cons, hpred]
      cases hdp : decide (specCaseMatch s input) with
      | true => rfl
      | false => exact ih hrest

/-- Witness for C3 at a store whose codes are uppercase: the search
coincides with case-insensitive matching. -/
theorem C3_witness :
    search_shoe c5Store ("s1".toList) =
      c5Store.find? (fun s => decide (specCaseMatch s ("s1".toList))) :=
  (C3_search_uppercases_input_only c5Store ("s1".toList)).2.2 (by decide)

/-- C9: a line that does not split into exactly five fields is skipped
individually: the load of a file containing it equals the load of the
same file with that line removed, whatever comes before or after. -/
theorem C9_malformed_line_skipped (p : List Shoe) (hdr l : Str)
    (pre post : List Str) (h : (splitOnChar ',' (trimStr l)).length ≠ 5) :
    read_shoes_data p (hdr :: (pre ++ l :: post)) =
      read_shoes_data p (hdr :: (pre ++ post)) := by
  have hskip : ∀ acc, loadLines (l :: post) acc = loadLines post acc :=
    fun acc => loadLines_skip l post acc h
  simp only [read_shoes_data, loadLines_append, hskip]

/-- Witness for C9: a two-field line between two well-formed lines is
skipped and the rest of the file still loads. -/
theorem C9_witness :
    read_shoes_data [] (headerLine :: ([lineGood] ++ lineBadFields :: [lineGood2])) =
      read_shoes_data [] (headerLine :: ([lineGood] ++ [lineGood2])) :=
  C9_malformed_line_skipped [] headerLine lineBadFields [lineGood] [lineGood2]
    (by decide)

/-- Evaluation of the aggregation of the tie counterexample store. -/
theorem c8CexGroups :
    c8CexStore.foldl updateStats [] =
      [⟨"AA".toList, 10001 / 1000, 1, 1⟩, ⟨"BB".toList, 10004 / 1000, 1, 1⟩] := by
  norm_num [c8CexStore, updateStats]
  decide

/-- Evaluation of the two-decimal rounding of the first tie value. -/
theorem c8Key1 : round2 ((10001 : ℚ) / 1000) = 10 := by
  norm_num [round2, roundHalfEven]

/-- Evaluation of the two-decimal rounding of the second tie value. -/
theorem c8Key2 : round2 ((10004 : ℚ) / 1000) = 10 := by
  norm_num [round2, roundHalfEven]

/-- Evaluation of stock_by_country on the tie counterexample store: the
two rows stay in encounter order because their two-decimal sort keys are
equal. -/
theorem c8CexEval :
    stock_by_country c8CexStore =
      [⟨"AA".toList, 10001 / 1000, 1, 1⟩, ⟨"BB".toList, 10004 / 1000, 1, 1⟩] := by
  rw [stock_by_country, c8CexGroups]
  simp only [sortDesc, List.foldr_cons, List.foldr_nil, insertDesc, c8Key1, c8Key2]
  rw [if_neg (lt_irrefl (10 : ℚ))]

/-- C8 counterexample: with group values 10.001 (first) and 10.004
(second), both formatting to 10.00, the report keeps the lower-valued
first group ahead of the higher-valued second group, so the output is not
sorted by the exact total value descending. -/
theorem C8_cex_sorts_on_rounded_value :
    (stock_by_country c8CexStore).map CStat.country = ["AA".toList, "BB".toList] ∧
    (stock_by_country c8CexStore).map CStat.totalValue
      = [10001 / 1000, 10004 / 1000] ∧
    ((10001 : ℚ) / 1000) < 10004 / 1000 := by
  refine ⟨by rw [c8CexEval]; rfl, by rw [c8CexEval]; rfl, by norm_num⟩

/-- C8 amended: stock_by_country groups records by exact country string
in order of first appearance and accumulates for each country the product
count, the total quantity, and the total value as the sum of cost times
quantity; the rows are then a permutation of those groups, sorted in
descending order of the total value rounded to two decimals (the value
parsed back from the displayed string), rows whose rounded values tie
keeping their encounter order. -/
theorem C8_stock_by_country_properties (store : List Shoe) :
    (∀ e ∈ stock_by_country store,
      e.totalValue = countryValue store e.country ∧
      e.totalQuantity = countryQty store e.country ∧
      e.products = countryCount store e.country) ∧
    List.Pairwise (fun a b => round2 b.totalValue ≤ round2 a.totalValue)
      (stock_by_country store) ∧
    List.Perm (stock_by_country store) (store.foldl updateStats []) ∧
    (∀ v : ℚ, (stock_by_country store).filter
        (fun e => decide (round2 e.totalValue = v)) =
      (store.foldl updateStats []).filter
        (fun e => decide (round2 e.totalValue = v))) := by
  refine ⟨?_, ?_, ?_, ?_⟩
  · intro e he
    have hmem : e ∈ store.foldl updateStats [] :=
      (sortDesc_perm (fun e => round2 e.totalValue) (store.foldl updateStats [])).mem_iff.mp he
    have h1 := statFor_of_mem _ (groups_nodup store) e hmem
    have h2 := statFor_foldl store [] e.country
    rw [h1] at h2
    simp only [statFor] at h2
    by_cases hc0 : countryCount store e.country = 0
    · rw [if_pos hc0] at h2
      exact absurd h2 (by simp)
    · rw [if_neg hc0] at h2
      have h3 : e = ⟨e.country, countryValue store e.country,
          countryQty store e.country, countryCount store e.country⟩ :=
        Option.some.inj h2
      refine ⟨?_, ?_, ?_⟩ <;> rw [h3]
  · exact sortDesc_pairwise (fun e => round2 e.totalValue) (store.foldl updateStats [])
  · exact sortDesc_perm (fun e => round2 e.totalValue) (store.foldl updateStats [])
  · intro v
    exact sortDesc_filter_stable (fun e => round2 e.totalValue) v
      (store.foldl updateStats [])

/-- Evaluation of the aggregation of the claims example store. -/
theorem c8ExampleGroups :
    c8ExampleStore.foldl updateStats [] =
      [⟨"ZA".toList, 25, 3, 2⟩, ⟨"US".toList, 100, 1, 1⟩] := by
  norm_num [c8ExampleStore, updateStats]
  decide

/-- Evaluation of stock_by_country on the claims example store: the US
row with value 100.00 precedes the ZA row with value 25.00. -/
theorem c8ExampleEval :
    stock_by_country c8ExampleStore =
      [⟨"US".toList, 100, 1, 1⟩, ⟨"ZA".toList, 25, 3, 2⟩] := by
  rw [stock_by_country, c8ExampleGroups]
  simp only [sortDesc, List.foldr_cons, List.foldr_nil, insertDesc,
    show round2 (25 : ℚ) = 25 from by norm_num [round2, roundHalfEven],
    show round2 (100 : ℚ) = 100 from by norm_num [round2, roundHalfEven]]
  rw [if_pos (by norm_num : (25 : ℚ) < 100)]

/-- Witness for C8 at the claims example: the US row precedes the ZA row
and the row totals agree with the filtered sums. -/
theorem C8_witness :
    stock_by_country c8ExampleStore =
      [⟨"US".toList, 100, 1, 1⟩, ⟨"ZA".toList, 25, 3, 2⟩] ∧
    (⟨"US".toList, (100 : ℚ), 1, 1⟩ : CStat) ∈ stock_by_country c8ExampleStore ∧
    ((⟨"US".toList, (100 : ℚ), 1, 1⟩ : CStat).totalValue
        = countryValue c8ExampleStore ("US".toList) ∧
      (⟨"US".toList, (100 : ℚ), 1, 1⟩ : CStat).totalQuantity
        = countryQty c8ExampleStore ("US".toList) ∧
      (⟨"US".toList, (100 : ℚ), 1, 1⟩ : CStat).products
        = countryCount c8ExampleStore ("US".toList)) :=
  ⟨c8ExampleEval, by simp [c8ExampleEval],
    (C8_stock_by_country_properties c8ExampleStore).1 _ (by simp [c8ExampleEval])⟩

/-- C4 amended: any sequence of adds accepted by the input checks whose
text fields contain no comma or newline and whose country does not start
with whitespace grows the store by exactly those records in insertion
order, and reloading the backing file reproduces exactly that store,
every field identical and the numeric fields numerically equal. -/
theorem C4_add_sequences_roundtrip (adds : List AddInput)
    (h : ∀ a ∈ adds, ValidAdd a) :
    (applyAdds ([], [headerLine]) adds).1.length = adds.length ∧
    (applyAdds ([], [headerLine]) adds).1 = adds.map shoeOf ∧
    ∀ prev, read_shoes_data prev (applyAdds ([], [headerLine]) adds).2 =
      (true, adds.map shoeOf) := by
  obtain ⟨h1, lines', h2, h3⟩ := applyAdds_roundtrip adds [] [] h rfl
  have h1' : (applyAdds ([], [headerLine]) adds).1 = adds.map shoeOf := by
    simpa using h1
  refine ⟨by rw [h1']; simp, h1', ?_⟩
  intro prev
  rw [h2]
  show loadLines lines' [] = (true, adds.map shoeOf)
  simpa using h3

/-- Evaluation of the printed form of cost one. -/
theorem strFloat_one : strFloat (1 : ℚ) = ['1', '.', '0'] := by
  have hneg : ¬ (1 : ℚ) < 0 := by norm_num
  rw [strFloat, if_neg hneg, strFloatAbs]
  rw [show (1 : ℚ).den = 1 from rfl]
  rw [show decExp 1 = 0 from by decide]
  rw [show ((1 : ℚ) * 10 ^ (0 : ℕ)).num.toNat = 1 from by norm_num]
  decide

/-- Evaluation of the record line written by the counterexample add. -/
theorem c4CexLine : shoeLine (shoeOf c4Add) = "A,B,C1,P,1.0,1".toList := by
  simp only [shoeLine, shoeOf, c4Add]
  rw [strFloat_one]
  decide

/-- C4 counterexample: one add accepted by every input check, whose
country contains a comma, leaves a one-record store, but reloading the
file yields an empty store: the written line has six fields and is
skipped. -/
theorem C4_cex_comma_breaks_roundtrip :
    0 < c4Add.cost ∧ 0 ≤ c4Add.quantity ∧
    (applyAdds ([], [headerLine]) [c4Add]).1.length = 1 ∧
    read_shoes_data [] (applyAdds ([], [headerLine]) [c4Add]).2 = (true, []) := by
  refine ⟨by norm_num [c4Add], by decide, by simp [applyAdds, capture_shoes], ?_⟩
  have hfile : (applyAdds ([], [headerLine]) [c4Add]).2 =
      [headerLine, shoeLine (shoeOf c4Add)] := by
    simp [applyAdds, capture_shoes, shoeOf]
  rw [hfile, c4CexLine]
  decide

/-- Witness for C4: one well-formed add round-trips through the file. -/
theorem C4_witness :
    (applyAdds ([], [headerLine]) [c4GoodAdd]).1.length = [c4GoodAdd].length ∧
    (applyAdds ([], [headerLine]) [c4GoodAdd]).1 = [c4GoodAdd].map shoeOf ∧
    ∀ prev, read_shoes_data prev (applyAdds ([], [headerLine]) [c4GoodAdd]).2 =
      (true, [c4GoodAdd].map shoeOf) :=
  C4_add_sequences_roundtrip [c4GoodAdd] (by
    intro a ha
    rw [List.mem_singleton] at ha
    subst ha
    refine ⟨by decide, by decide, by decide, by decide, by decide, by decide,
      by decide, by decide, by decide, ?_⟩
    intro c hc
    rw [show c4GoodAdd.country.head? = some 'Z' from by decide] at hc
    injection hc with h
    subst h
    decide)

end Inventory
